import Mathlib

/-!
Verification of the natural-language specification of the
`vscode-github-issues-prs` extension against a shallow embedding of
`src/github-issues-prs.ts`.

The embedding models the pure computational core of the source file:
the milestone selector (`getCurrentMilestones`), the remote resolver
(`getGitHubRemotes`), the issue aggregation loop and tree building of
`fetchChildren`, and the provider's refresh/poll state machine.
External collaborators (the GitHub client, the git subprocess, the
credential helper) are passed in as explicit oracle functions.

JavaScript conventions used throughout the embedding:
- a value of type `string | null | undefined` is modelled as `Option String`;
  truthiness of such a value is "present and non-empty";
- `Array.prototype.sort` with a consistent comparator is modelled by
  stable insertion sort over the comparator's non-strict order;
- `String.prototype.localeCompare` is modelled as lexicographic string
  comparison (the default locale on ASCII data).
-/

namespace GHIP

/-! ## Data model: milestones -/

/-- A milestone as returned by the GitHub list-milestones endpoint;
only the fields read by the source are modelled. -/
structure MilestoneData where
  title : String
  due_on : Option String
deriving DecidableEq

/-- JavaScript truthiness of the `due_on` field (`null`/`undefined`/empty
string are falsy). -/
def hasDueDate (m : MilestoneData) : Bool :=
  match m.due_on with
  | none => false
  | some s => !s.isEmpty

/-- Lexicographic order on strings, via the order on their character lists. -/
def strLt (a b : String) : Prop := a.data < b.data

/-- Non-strict lexicographic order on strings. -/
def strLe (a b : String) : Prop := a.data ≤ b.data

instance : DecidableRel strLt := fun a b =>
  inferInstanceAs (Decidable (a.data < b.data))

instance : DecidableRel strLe := fun a b =>
  inferInstanceAs (Decidable (a.data ≤ b.data))

/-- Three-way lexicographic comparison of strings, the model of
`String.prototype.localeCompare`. -/
def strCmp (a b : String) : Int :=
  if strLt a b then -1 else if strLt b a then 1 else 0

/-- Modelled from the spec: `compareDateStrings` is imported from `./utils`,
which is not part of `src/`. Per the spec, milestones sort "ascending by due
date using a comparator where a missing due date sorts after all present due
dates"; present ISO date strings compare chronologically, which coincides
with lexicographic comparison. -/
def compareDateStrings (a b : Option String) : Int :=
  match a, b with
  | some x, some y => strCmp x y
  | some _, none => -1
  | none, some _ => 1
  | none, none => 0

/-- The comparator passed to `milestones.sort` in `getCurrentMilestones`
(lines 224-230 of the source): due date first (`if (cmp) return cmp`, a
non-zero comparison being truthy), ties broken by title. -/
def milestoneCmp (a b : MilestoneData) : Int :=
  if compareDateStrings a.due_on b.due_on ≠ 0 then compareDateStrings a.due_on b.due_on
  else strCmp a.title b.title

/-- The non-strict order induced by `milestoneCmp`; `Array.prototype.sort`
with the comparator produces a list sorted with respect to it. -/
def msLE (a b : MilestoneData) : Prop := milestoneCmp a b ≤ 0

instance : DecidableRel msLE := fun a b =>
  inferInstanceAs (Decidable (milestoneCmp a b ≤ 0))

/-- The filtering step of `getCurrentMilestones` (lines 231-233): if the
first milestone of the sorted list has a (truthy) due date, drop every
milestone without one. -/
def applyDueFilter (l : List MilestoneData) : List MilestoneData :=
  match l with
  | [] => l
  | m :: _ => if hasDueDate m then l.filter hasDueDate else l

/-- The pure part of `getCurrentMilestones` (source lines 221-236), applied
to the list of open milestones fetched from the API: sort by the comparator,
filter undated ones when the earliest is dated, return the first two titles. -/
def getCurrentMilestones (ms : List MilestoneData) : List String :=
  let sorted := List.insertionSort msLE ms
  ((applyDueFilter sorted).take 2).map MilestoneData.title

/-- The order the spec claims for the milestone sort: ascending by due date,
missing due dates after all present ones, ties broken by title. -/
def specLE (a b : MilestoneData) : Prop :=
  match a.due_on, b.due_on with
  | some x, some y => strLt x y ∨ (x = y ∧ strLe a.title b.title)
  | some _, none => True
  | none, some _ => False
  | none, none => strLe a.title b.title

/-! ## Remote resolver (`getGitHubRemotes`, source lines 238-252)

The source runs `git remote -v` and feeds its stdout to
`allMatches(/^[^\s]+\s+([^\s]+)/gm, stdout, 1)`.  `allMatches` comes from
`./utils`, which is not part of `src/`; per the spec it drives the global
regex over the text, yielding capture group 1 of every match ("extract the
second whitespace-delimited token from every line").  The scanner below
embeds exactly that behaviour of a global multiline `exec` loop: candidate
positions are starts of lines; at a candidate position the pattern
`[^\s]+\s+([^\s]+)` is matched greedily (its character classes are disjoint,
so greedy maximal munch is exact), and scanning resumes right after each
match. -/

/-- JavaScript `\s` on the ASCII range. -/
def jsWs (c : Char) : Bool :=
  c == ' ' || c == '\t' || c == '\n' || c == '\r' || c == '\x0b' || c == '\x0c'

/-- Attempt to match `[^\s]+\s+([^\s]+)` at the current position; returns
the capture (the second token) and the remainder of the text after the
match. -/
def tryMatch (cs : List Char) : Option (List Char × List Char) :=
  let t1 := cs.takeWhile (fun c => !jsWs c)
  let r1 := cs.dropWhile (fun c => !jsWs c)
  let w := r1.takeWhile jsWs
  let r2 := r1.dropWhile jsWs
  let t2 := r2.takeWhile (fun c => !jsWs c)
  let r3 := r2.dropWhile (fun c => !jsWs c)
  if t1.isEmpty || w.isEmpty || t2.isEmpty then none else some (t2, r3)

/-- One global `exec` scan of `/^[^\s]+\s+([^\s]+)/gm` over the text.  The
Boolean argument records whether the current position is a line start (the
only positions where the `m`-anchored `^` can match).  The fuel argument
makes the recursion structural; it is always called with more fuel than
characters. -/
def scanAux : Nat → List Char → Bool → List (List Char)
  | 0, _, _ => []
  | _ + 1, [], _ => []
  | fuel + 1, c :: cs, atStart =>
    if atStart then
      match tryMatch (c :: cs) with
      | some (tok, rest) => tok :: scanAux fuel rest false
      | none => scanAux fuel cs (c == '\n' || c == '\r')
    else scanAux fuel cs (c == '\n' || c == '\r')

/-- All captures of the global regex over the text, starting at a
line start (position 0). -/
def scanT (cs : List Char) (atStart : Bool) : List (List Char) :=
  scanAux (cs.length + 1) cs atStart

/-- First-occurrence de-duplication with an accumulator of already seen
values: the model of iterating a JavaScript `Set` built from a list
(insertion order, first occurrence kept). -/
def dedupAux {α : Type} [DecidableEq α] (seen : List α) : List α → List α
  | [] => []
  | x :: xs => if x ∈ seen then dedupAux seen xs else x :: dedupAux (x :: seen) xs

/-- De-duplication by exact equality keeping first occurrences in order,
the model of `new Set(...)` iteration. -/
def firstDedup {α : Type} [DecidableEq α] (l : List α) : List α := dedupAux [] l

/-- The literal characters of `github.com/`. -/
def ghLit : List Char := "github.com/".data

/-- Attempt to read `([^/]+)\/([^ \.]+)` starting right after an occurrence
of `github.com/`: a non-empty owner (stopping at `/`), a slash, and a
non-empty repository name stopping at a space or a literal dot. -/
def tryOwnerRepo (cs : List Char) : Option (List Char × List Char) :=
  let owner := cs.takeWhile (fun c => !(c == '/'))
  match owner, cs.dropWhile (fun c => !(c == '/')) with
  | [], _ => none
  | _, [] => none
  | o, _ :: r2 =>
    let repo := r2.takeWhile (fun c => !(c == ' ') && !(c == '.'))
    if repo.isEmpty then none else some (o, repo)

/-- Try the pattern at occurrence positions of `github.com/` from position
`i` downwards, deepest occurrence first. -/
def ghAux (cs : List Char) : Nat → Option (List Char × List Char)
  | 0 =>
    if ghLit.isPrefixOf cs then tryOwnerRepo (cs.drop ghLit.length) else none
  | i + 1 =>
    match (if ghLit.isPrefixOf (cs.drop (i + 1)) then
        tryOwnerRepo (cs.drop (i + 1 + ghLit.length)) else none) with
    | some p => some p
    | none => ghAux cs i

/-- The model of `/([^\s]*github\.com\/([^/]+)\/([^ \.]+)[^\s]*)/.exec(url)`
on a whitespace-free input (every input in `getGitHubRemotes` is a capture
of `[^\s]+`, hence whitespace-free).  On such input the leading greedy
`[^\s]*` can reach every position, so the leftmost match tries the deepest
`github.com/` occurrence first and backtracks towards earlier ones, and
capture group 1 spans the whole input. -/
def matchGitHub (cs : List Char) : Option (List Char × List Char) :=
  ghAux cs cs.length

/-- A resolved GitHub remote, `interface GitRemote` of the source. -/
structure GitRemote where
  url : String
  owner : String
  repo : String
  username : String
deriving DecidableEq

/-- The per-URL step of the resolver loop: keep the URL only if it matches
the GitHub pattern and the credential lookup (`fill`, modelled from the
spec as an oracle `url -> optional username`, since `git-credential-node`
is an external collaborator) returns data.  For a whitespace-free URL,
capture group 1 (`m[1]`) is the whole URL. -/
def resolveUrl (fill : String → Option String) (tok : List Char) : Option GitRemote :=
  match matchGitHub tok with
  | none => none
  | some (o, r) =>
    match fill tok.asString with
    | none => none
    | some username =>
      some { url := tok.asString, owner := o.asString, repo := r.asString, username }

/-- The remote resolver `getGitHubRemotes` (source lines 238-252), as a
function of the `git remote -v` stdout and the credential oracle. -/
def getGitHubRemotes (stdout : String) (fill : String → Option String) :
    List GitRemote :=
  (firstDedup (scanT stdout.data true)).filterMap (resolveUrl fill)

/-- Text made of the given lines joined by newlines, for stating the
per-line behaviour of the scanner. -/
def joinLines : List (List Char) → List Char
  | [] => []
  | [l] => l
  | l :: ls => l ++ '\n' :: joinLines ls

/-- A well-formed `git remote -v` line: a non-empty first token, whitespace,
a non-empty second token, and a rest that contains no newline characters
(`^` of a multiline regex also matches after `\r`). -/
def wfLineB (l : List Char) : Bool :=
  let r1 := l.dropWhile (fun c => !jsWs c)
  let r2 := r1.dropWhile jsWs
  let rest := r2.dropWhile (fun c => !jsWs c)
  !(l.takeWhile (fun c => !jsWs c)).isEmpty &&
  !(r1.takeWhile jsWs).isEmpty &&
  !(r2.takeWhile (fun c => !jsWs c)).isEmpty &&
  rest.all (fun c => !(c == '\n') && !(c == '\r'))

/-- The second whitespace-delimited token of a line. -/
def secondTok (l : List Char) : List Char :=
  ((l.dropWhile (fun c => !jsWs c)).dropWhile jsWs).takeWhile (fun c => !jsWs c)

/-- A position at which the greedy `[^\s]+` of the scanner must stop: end
of text or a whitespace character. -/
def headWsOrNil (cs : List Char) : Prop :=
  match cs with
  | [] => True
  | c :: _ => jsWs c = true

/-! ## Issue aggregation (`fetchChildren`, source lines 104-145) -/

/-- A search result item; only the fields the source reads are modelled.
`milestone` is the title of the item's milestone object, or `none` when the
item has no milestone. -/
structure Item where
  title : String
  number : Nat
  pull_request : Bool
  milestone : Option String
deriving DecidableEq

/-- An `Issue` tree item as built in the search loop (source lines 124-132):
label `"{title} (#{number})"`, context value `pull_request` or `issue`, and
the source item. -/
structure IssueNode where
  label : String
  contextValue : String
  item : Item
deriving DecidableEq

/-- Conversion of a search result item to an `Issue` tree item. -/
def toIssueNode (item : Item) : IssueNode :=
  { label := item.title ++ " (#" ++ toString item.number ++ ")"
    contextValue := if item.pull_request then "pull_request" else "issue"
    item }

/-- An error thrown by a GitHub API call; only the `code` field is
inspected (`err.code === 404`). -/
structure Err where
  code : Option Int
deriving DecidableEq

/-- The `err.code === 404` test of the catch handler (source line 136). -/
def is404 (e : Err) : Bool := e.code == some 404

instance {ε α : Type} [DecidableEq ε] [DecidableEq α] : DecidableEq (Except ε α)
  | .error x, .error y =>
    if h : x = y then .isTrue (h ▸ rfl) else .isFalse (fun hc => h (Except.error.inj hc))
  | .error _, .ok _ => .isFalse (fun hc => Except.noConfusion hc)
  | .ok _, .error _ => .isFalse (fun hc => Except.noConfusion hc)
  | .ok x, .ok y =>
    if h : x = y then .isTrue (h ▸ rfl) else .isFalse (fun hc => h (Except.ok.inj hc))

/-- The parameter object passed to `github.search.issues`
(source line 122). -/
structure SearchParams where
  q : String
  sort : String
  order : String
  per_page : Nat
deriving DecidableEq

/-- Construction of the search parameters: `sort: 'created'`,
`order: 'asc'`, `per_page: 100`. -/
def mkSearchParams (q : String) : SearchParams :=
  { q, sort := "created", order := "asc", per_page := 100 }

/-- The search query string built at source lines 114-120:
`repo:{owner}/{repo} is:open`, then ` assignee:{username}` when the
username is truthy (non-empty), then ` milestone:"{title}"` when the
milestone is truthy (present and non-empty). -/
def buildQuery (remote : GitRemote) (milestone : Option String) : String :=
  let q := "repo:" ++ remote.owner ++ "/" ++ remote.repo ++ " is:open"
  let q := if remote.username.isEmpty then q else q ++ " assignee:" ++ remote.username
  match milestone with
  | some t => if t.isEmpty then q else q ++ " milestone:\"" ++ t ++ "\""
  | none => q

/-- The search collaborator: the `github.search.issues` call, returning
result items or a rejection. -/
def Search : Type := SearchParams → Except Err (List Item)

/-- The milestones collaborator: the `github.issues.getMilestones` call
(owner, repo, page size), returning milestone data or a rejection. -/
def MilestoneOracle : Type := String → String → Nat → Except Err (List MilestoneData)

/-- The per-milestone passes of the loop at source lines 108-111: the
current milestone titles, or a single undefined pass when there are none. -/
def milestonePasses (titles : List String) : List (Option String) :=
  if titles.isEmpty then [none] else titles.map some

/-- The inner search loop of a remote (source lines 113-134).  Returns the
issues pushed before any failure together with the error that interrupted
the loop, if any: pushes into the shared `issues` array made before a
throw survive it. -/
def runQueries (search : Search) (r : GitRemote) :
    List (Option String) → List IssueNode × Option Err
  | [] => ([], none)
  | m :: rest =>
    match search (mkSearchParams (buildQuery r m)) with
    | .error e => ([], some e)
    | .ok items =>
      let more := runQueries search r rest
      (items.map toIssueNode ++ more.1, more.2)

/-- The whole `try` body for one remote (source lines 107-134): fetch and
select the current milestones, then run one search per milestone pass.
Returns the issues contributed by the remote and the error that
interrupted it, if any. -/
def processRemote (o : MilestoneOracle) (search : Search) (r : GitRemote) :
    List IssueNode × Option Err :=
  match o r.owner r.repo 10 with
  | .error e => ([], some e)
  | .ok ms => runQueries search r (milestonePasses (getCurrentMilestones ms))

/-- A node of the presentation tree: a plain message leaf, an issue leaf,
or a milestone group (label plus issue children). -/
inductive TreeNode
  | message (label : String)
  | issue (node : IssueNode)
  | group (label : String) (issues : List IssueNode)
deriving DecidableEq

/-- The `Cannot access {owner}/{repo}` message pushed for a 404 (source
line 137). -/
def cannotAccess (r : GitRemote) : TreeNode :=
  .message ("Cannot access " ++ r.owner ++ "/" ++ r.repo)

/-- The remotes loop of `fetchChildren` (source lines 106-142), carrying
the `issues` and `errors` accumulators: a 404-class error adds one message
and moves on, any other error rejects the whole computation. -/
def aggregateAux (o : MilestoneOracle) (search : Search) :
    List GitRemote → List IssueNode → List TreeNode →
    Except Err (List IssueNode × List TreeNode)
  | [], issues, errors => .ok (issues, errors)
  | r :: rest, issues, errors =>
    match processRemote o search r with
    | (ri, none) => aggregateAux o search rest (issues ++ ri) errors
    | (ri, some e) =>
      if is404 e then aggregateAux o search rest (issues ++ ri) (errors ++ [cannotAccess r])
      else .error e

/-- Aggregation over all remotes, starting from empty accumulators. -/
def aggregate (o : MilestoneOracle) (search : Search) (remotes : List GitRemote) :
    Except Err (List IssueNode × List TreeNode) :=
  aggregateAux o search remotes [] []

/-- A remote either processes fully or fails with a 404-class error (the
recoverable outcomes of the per-remote `try`). -/
def okOr404 (o : MilestoneOracle) (search : Search) (r : GitRemote) : Bool :=
  match (processRemote o search r).2 with
  | none => true
  | some e => is404 e

/-- The items a successful search query returns (used to state the order of
the aggregated issue list). -/
def okItems (search : Search) (r : GitRemote) (m : Option String) : List Item :=
  match search (mkSearchParams (buildQuery r m)) with
  | .ok items => items
  | .error _ => []

/-- The one message a 404-failing remote contributes. -/
def errEntry (o : MilestoneOracle) (search : Search) (r : GitRemote) :
    Option TreeNode :=
  match (processRemote o search r).2 with
  | some e => if is404 e then some (cannotAccess r) else none
  | none => none

/-! ## Tree builder (`fetchChildren`, source lines 143-165) -/

/-- A milestone group under construction: the `Milestone` tree item of the
source (label plus collected issue children). -/
structure Group where
  label : String
  issues : List IssueNode
deriving DecidableEq

/-- The grouping key of an issue (source line 151):
`m && m.title || 'No Milestone'` — the milestone title, or the sentinel
when the issue has no milestone or its title is empty (falsy). -/
def labelKey (i : IssueNode) : String :=
  match i.item.milestone with
  | some t => if t.isEmpty then "No Milestone" else t
  | none => "No Milestone"

/-- One step of the grouping loop (source lines 149-159): append the issue
to the existing group with its key, or create the group at the end. -/
def addIssue (gs : List Group) (i : IssueNode) : List Group :=
  if gs.any (fun g => g.label == labelKey i) then
    gs.map (fun g => if g.label == labelKey i then
      { g with issues := g.issues ++ [i] } else g)
  else gs ++ [{ label := labelKey i, issues := [i] }]

/-- Grouping of the aggregated issues by milestone label, in first-seen
order. -/
def groupIssues (issues : List IssueNode) : List Group :=
  issues.foldl addIssue []

/-- The tree-building tail of `fetchChildren` (source lines 143-165):
empty issue list yields the errors, or a `No issues found` message;
otherwise the milestone groups, flattened when there is exactly one group
labelled `No Milestone`. -/
def buildTree (issues : List IssueNode) (errors : List TreeNode) : List TreeNode :=
  if issues.isEmpty then
    if errors.isEmpty then [.message "No issues found"] else errors
  else
    match groupIssues issues with
    | [g] =>
      if g.label = "No Milestone" then g.issues.map TreeNode.issue
      else [TreeNode.group g.label g.issues]
    | gs => gs.map (fun g => TreeNode.group g.label g.issues)

/-- The whole `fetchChildren` (source lines 89-166) with its environment
checks, as a function of the workspace/remotes oracles. -/
def fetchChildren (hasRootPath : Bool) (remotes : Except Unit (List GitRemote))
    (o : MilestoneOracle) (search : Search) : Except Err (List TreeNode) :=
  if !hasRootPath then .ok [.message "No folder opened"]
  else
    match remotes with
    | .error _ => .ok [.message "Not a GitHub repository"]
    | .ok [] => .ok [.message "No GitHub remotes found"]
    | .ok rs =>
      match aggregate o search rs with
      | .error e => .error e
      | .ok (issues, errors) => .ok (buildTree issues errors)

/-! ## Tree provider state machine (source lines 40-87)

The provider holds `fetching` (busy flag), `lastFetch` (timestamp recorded
when a build starts) and `children` (the cached build promise).  The model
adds bookkeeping that the claims quantify over: `nextId` identifies cached
build promises (and counts builds started), `pending` records whether the
latest build promise is still unsettled, `fireOnSettle` records a `refresh`
awaiting its build before firing the change event, `fired` counts change
notifications, and `lastCompleted` records when a build last fulfilled. -/

structure PState where
  fetching : Bool
  lastFetch : Option Nat
  children : Option Nat
  nextId : Nat
  pending : Bool
  fireOnSettle : Bool
  fired : Nat
  lastCompleted : Option Nat
deriving DecidableEq

/-- The provider state at construction: no build, no cache. -/
def initState : PState :=
  { fetching := false, lastFetch := none, children := none, nextId := 0
    pending := false, fireOnSettle := false, fired := 0, lastCompleted := none }

/-- Starting a build (source lines 65-70): set the busy flag, record the
start time, cache the new build promise. -/
def startBuild (s : PState) (now : Nat) : PState :=
  { s with fetching := true, lastFetch := some now,
           children := some s.nextId, nextId := s.nextId + 1, pending := true }

/-- `getChildren` on the root (source lines 60-73): start a build only when
no cached value exists. -/
def getChildrenStep (s : PState) (now : Nat) : PState :=
  match s.children with
  | some _ => s
  | none => startBuild s now

/-- `refresh` (source lines 75-81): guarded by the busy flag; otherwise
clear the cache, start a build via `getChildren`, and fire the change
event once the awaited build fulfills. -/
def refreshStep (s : PState) (now : Nat) : PState :=
  if s.fetching then s
  else
    let s' := getChildrenStep { s with children := none } now
    { s' with fireOnSettle := true }

/-- The staleness condition of `poll` (source line 84):
`!this.lastFetch || this.lastFetch + 30 * 60 * 1000 < Date.now()`
(a recorded timestamp of 0 is falsy in JavaScript). -/
def pollCond (lastFetch : Option Nat) (now : Nat) : Bool :=
  match lastFetch with
  | none => true
  | some t => t == 0 || decide (t + 30 * 60 * 1000 < now)

/-- `poll` (source lines 83-87): refresh when stale, otherwise do
nothing. -/
def pollStep (s : PState) (now : Nat) : PState :=
  if pollCond s.lastFetch now then refreshStep s now else s

/-- Settling of the in-flight build promise.  On fulfillment the `then`
handler of source line 69 clears the busy flag, and a waiting `refresh`
resumes and fires the change event; on rejection there is no handler, so
only the promise stops being pending. -/
def settleStep (s : PState) (ok : Bool) (now : Nat) : PState :=
  if s.pending then
    if ok then
      { s with pending := false, fetching := false,
               fired := s.fired + (if s.fireOnSettle then 1 else 0),
               fireOnSettle := false, lastCompleted := some now }
    else { s with pending := false, fireOnSettle := false }
  else s

/-- Externally triggered provider events: a host `getChildren` call on the
root, the refresh command, the focus-change poll, and settling of the
in-flight build. -/
inductive Ev
  | getChildren (now : Nat)
  | refresh (now : Nat)
  | poll (now : Nat)
  | settle (ok : Bool) (now : Nat)
deriving DecidableEq

/-- The provider transition function. -/
def step (s : PState) : Ev → PState
  | .getChildren now => getChildrenStep s now
  | .refresh now => refreshStep s now
  | .poll now => pollStep s now
  | .settle ok now => settleStep s ok now

/-- Running a sequence of events. -/
def run (s : PState) (evs : List Ev) : PState := evs.foldl step s

/-! ## Concrete instances used in counterexamples and witnesses -/

/-- An issue whose milestone object has an empty title. -/
def iEmptyTitle : IssueNode :=
  toIssueNode { title := "t", number := 1, pull_request := false, milestone := some "" }

/-- Three issues without a milestone. -/
def iNoM1 : IssueNode :=
  toIssueNode { title := "a", number := 1, pull_request := false, milestone := none }

def iNoM2 : IssueNode :=
  toIssueNode { title := "b", number := 2, pull_request := true, milestone := none }

def iNoM3 : IssueNode :=
  toIssueNode { title := "c", number := 3, pull_request := false, milestone := none }

/-- A remote with an empty (falsy) username. -/
def r0 : GitRemote := { url := "u", owner := "o", repo := "re", username := "" }

/-- A second remote, used to show that remotes after a 404 still process. -/
def r1 : GitRemote := { url := "v", owner := "p", repo := "se", username := "" }

/-- A milestones oracle returning two dated milestones for `o/re` and none
for any other repository. -/
def mo0 : MilestoneOracle := fun owner _ _ =>
  if owner = "o" then
    .ok [{ title := "X", due_on := some "2024-01-01" },
         { title := "Y", due_on := some "2024-02-01" }]
  else .ok []

/-- A plain search result item. -/
def item0 : Item := { title := "t", number := 1, pull_request := false, milestone := none }

/-- A second search result item. -/
def item1 : Item := { title := "s", number := 2, pull_request := false, milestone := none }

/-- A search oracle that answers the first milestone query of `o/re` with
one item, rejects the second one with a 404, and answers any other query
with one item. -/
def search0 : Search := fun p =>
  if p.q = "repo:o/re is:open milestone:\"X\"" then .ok [item0]
  else if p.q = "repo:o/re is:open milestone:\"Y\"" then .error { code := some 404 }
  else .ok [item1]

/-- A milestones oracle that rejects `o/re` with a 404 and returns no
milestones otherwise. -/
def mo404 : MilestoneOracle := fun owner _ _ =>
  if owner = "o" then .error { code := some 404 } else .ok []

/-- A search oracle that always answers with a single item. -/
def searchOk : Search := fun _ => .ok [item1]

/-- A provider state with a build in flight. -/
def sBusy : PState :=
  { fetching := true, lastFetch := some 5, children := some 0, nextId := 1
    pending := true, fireOnSettle := false, fired := 0, lastCompleted := none }

/-- A provider state with a fulfilled build and no build in flight. -/
def sIdle : PState :=
  { fetching := false, lastFetch := some 5, children := some 0, nextId := 1
    pending := false, fireOnSettle := false, fired := 1, lastCompleted := some 9 }

/-- The event trace of the staleness counterexample: a build starts at
t = 1000, fulfills at t = 400000, and a poll arrives at t = 1801500. -/
def pollTrace : List Ev :=
  [.getChildren 1000, .settle true 400000, .poll 1801500]

/-- The two `git remote -v` lines of the resolver example. -/
def exLine1 : List Char := "origin\thttps://github.com/acme/widgets.git (fetch)".data

def exLine2 : List Char := "origin\thttps://github.com/acme/widgets.git (push)".data

/-- A credential oracle knowing the example URL. -/
def exFill : String → Option String := fun u =>
  if u = "https://github.com/acme/widgets.git" then some "alice" else none

/-- The expected resolved remote of the resolver example. -/
def exRemote : GitRemote :=
  { url := "https://github.com/acme/widgets.git", owner := "acme",
    repo := "widgets", username := "alice" }

/-! ## Order lemmas for the milestone comparator -/

theorem strLt_trans {a b c : String} (h1 : strLt a b) (h2 : strLt b c) : strLt a c :=
  show a.data < c.data from lt_trans h1 h2

theorem strLe_trans {a b c : String} (h1 : strLe a b) (h2 : strLe b c) : strLe a c :=
  show a.data ≤ c.data from le_trans h1 h2

theorem strLe_total (a b : String) : strLe a b ∨ strLe b a :=
  le_total a.data b.data

theorem strLt_asymm {a b : String} (h : strLt a b) : ¬ strLt b a :=
  fun h2 => absurd h (lt_asymm h2)

theorem strLe_of_strLt {a b : String} (h : strLt a b) : strLe a b :=
  show a.data ≤ b.data from le_of_lt h

theorem strLt_of_strLt_of_strLe {a b c : String} (h1 : strLt a b) (h2 : strLe b c) :
    strLt a c :=
  show a.data < c.data from lt_of_lt_of_le h1 h2

theorem strLt_of_strLe_of_strLt {a b c : String} (h1 : strLe a b) (h2 : strLt b c) :
    strLt a c :=
  show a.data < c.data from lt_of_le_of_lt h1 h2

theorem str_data_inj {a b : String} (h : a.data = b.data) : a = b := by
  cases a
  cases b
  exact congrArg String.mk h

theorem strLt_trichotomy (a b : String) : strLt a b ∨ a = b ∨ strLt b a := by
  rcases lt_trichotomy a.data b.data with h | h | h
  · exact Or.inl h
  · exact Or.inr (Or.inl (str_data_inj h))
  · exact Or.inr (Or.inr h)

theorem strLe_of_not_strLt {a b : String} (h : ¬ strLt b a) : strLe a b :=
  show a.data ≤ b.data from not_lt.mp h

theorem strLt_irrefl (a : String) : ¬ strLt a a :=
  fun h => absurd h (lt_irrefl a.data)

theorem strCmp_le_zero_iff (a b : String) : strCmp a b ≤ 0 ↔ strLe a b := by
  unfold strCmp
  split
  · rename_i h
    simp only [iff_true_intro (strLe_of_strLt h)]
    norm_num
  · split
    · rename_i h1 h2
      constructor
      · intro h
        norm_num at h
      · intro h
        exact absurd (strLt_of_strLe_of_strLt h h2) (strLt_irrefl a)
    · rename_i h1 h2
      simp only [iff_true_intro (strLe_of_not_strLt h2)]
      norm_num

theorem strCmp_eq_zero_iff (a b : String) : strCmp a b = 0 ↔ a = b := by
  unfold strCmp
  split
  · rename_i h
    constructor
    · intro h0
      norm_num at h0
    · rintro rfl
      exact absurd h (strLt_irrefl a)
  · split
    · rename_i h1 h2
      constructor
      · intro h0
        norm_num at h0
      · rintro rfl
        exact absurd h2 (strLt_irrefl a)
    · rename_i h1 h2
      rcases strLt_trichotomy a b with h | h | h
      · exact absurd h h1
      · simp [h]
      · exact absurd h h2

theorem strCmp_neg_iff (a b : String) : strCmp a b < 0 ↔ strLt a b := by
  unfold strCmp
  split
  · rename_i h
    simp only [iff_true_intro h]
    norm_num
  · split
    · rename_i h1 h2
      constructor
      · intro h
        norm_num at h
      · intro h
        exact absurd h h1
    · rename_i h1 h2
      constructor
      · intro h
        norm_num at h
      · intro h
        exact absurd h h1

theorem msLE_iff (a b : MilestoneData) : msLE a b ↔ specLE a b := by
  unfold msLE milestoneCmp compareDateStrings specLE
  cases ha : a.due_on with
  | none =>
    cases hb : b.due_on with
    | none => simpa using strCmp_le_zero_iff a.title b.title
    | some y => simp
  | some x =>
    cases hb : b.due_on with
    | none => simp
    | some y =>
      by_cases h0 : strCmp x y = 0
      · have hxy : x = y := (strCmp_eq_zero_iff x y).mp h0
        subst hxy
        rw [if_neg (by simp [h0])]
        rw [strCmp_le_zero_iff]
        constructor
        · intro h
          exact Or.inr ⟨rfl, h⟩
        · rintro (h | ⟨-, h⟩)
          · exact absurd h (strLt_irrefl x)
          · exact h
      · rw [if_pos h0]
        constructor
        · intro h
          exact Or.inl ((strCmp_neg_iff x y).mp (lt_of_le_of_ne h h0))
        · rintro (h | ⟨rfl, -⟩)
          · exact le_of_lt ((strCmp_neg_iff x y).mpr h)
          · exact absurd ((strCmp_eq_zero_iff x x).mpr rfl) h0

theorem specLE_total (a b : MilestoneData) : specLE a b ∨ specLE b a := by
  unfold specLE
  cases ha : a.due_on with
  | none =>
    cases hb : b.due_on with
    | none => exact strLe_total a.title b.title
    | some y => simp
  | some x =>
    cases hb : b.due_on with
    | none => simp
    | some y =>
      rcases strLt_trichotomy x y with h | rfl | h
      · exact Or.inl (Or.inl h)
      · rcases strLe_total a.title b.title with h | h
        · exact Or.inl (Or.inr ⟨rfl, h⟩)
        · exact Or.inr (Or.inr ⟨rfl, h⟩)
      · exact Or.inr (Or.inl h)

theorem specLE_trans {a b c : MilestoneData} (h1 : specLE a b) (h2 : specLE b c) :
    specLE a c := by
  unfold specLE at *
  cases ha : a.due_on with
  | none =>
    cases hb : b.due_on with
    | none =>
      cases hc : c.due_on with
      | none =>
        rw [ha, hb] at h1
        rw [hb, hc] at h2
        exact strLe_trans h1 h2
      | some z =>
        rw [hb, hc] at h2
        exact h2.elim
    | some y =>
      rw [ha, hb] at h1
      exact h1.elim
  | some x =>
    cases hc : c.due_on with
    | none => trivial
    | some z =>
      cases hb : b.due_on with
      | none =>
        rw [hb, hc] at h2
        exact h2.elim
      | some y =>
        rw [ha, hb] at h1
        rw [hb, hc] at h2
        rcases h1 with h1 | ⟨rfl, h1⟩
        · rcases h2 with h2 | ⟨rfl, h2⟩
          · exact Or.inl (strLt_trans h1 h2)
          · exact Or.inl h1
        · rcases h2 with h2 | ⟨rfl, h2⟩
          · exact Or.inl h2
          · exact Or.inr ⟨rfl, strLe_trans h1 h2⟩

instance : IsTotal MilestoneData msLE :=
  ⟨fun a b => by
    rcases specLE_total a b with h | h
    · exact Or.inl ((msLE_iff a b).mpr h)
    · exact Or.inr ((msLE_iff b a).mpr h)⟩

instance : IsTrans MilestoneData msLE :=
  ⟨fun a b c h1 h2 =>
    (msLE_iff a c).mpr (specLE_trans ((msLE_iff a b).mp h1) ((msLE_iff b c).mp h2))⟩

/-- C1: the milestone selector sorts the fetched milestones ascending by
due date (missing due dates after all present ones, ties broken by title
comparison), removes the milestones lacking a due date exactly when the
first milestone of the sorted list has one, and returns the titles of the
first two milestones of the result; on
`[A/2024-03-01, B/no due, C/2024-01-01]` it returns `["C", "A"]`, and on
the all-undated `[Z, A]` it returns `["A", "Z"]`. -/
theorem getCurrentMilestones_correct :
    (∀ ms : List MilestoneData, ∃ sorted : List MilestoneData,
        sorted.Perm ms ∧ List.Sorted specLE sorted ∧
        getCurrentMilestones ms = ((applyDueFilter sorted).take 2).map MilestoneData.title) ∧
    getCurrentMilestones
        [⟨"A", some "2024-03-01"⟩, ⟨"B", none⟩, ⟨"C", some "2024-01-01"⟩] = ["C", "A"] ∧
    getCurrentMilestones [⟨"Z", none⟩, ⟨"A", none⟩] = ["A", "Z"] := by
  refine ⟨fun ms => ⟨List.insertionSort msLE ms, List.perm_insertionSort msLE ms,
    ?_, rfl⟩, by decide, by decide⟩
  exact (List.sorted_insertionSort msLE ms).imp (fun h => (msLE_iff _ _).mp h)

/-! ## Lemmas on first-occurrence de-duplication -/

theorem mem_dedupAux {α : Type} [DecidableEq α] (a : α) :
    ∀ (l seen : List α), a ∈ dedupAux seen l ↔ a ∈ l ∧ a ∉ seen := by
  intro l
  induction l with
  | nil => simp [dedupAux]
  | cons x xs ih =>
    intro seen
    by_cases hx : x ∈ seen
    · rw [dedupAux, if_pos hx, ih]
      constructor
      · rintro ⟨h1, h2⟩
        exact ⟨List.mem_cons_of_mem x h1, h2⟩
      · rintro ⟨h1, h2⟩
        rcases List.mem_cons.mp h1 with rfl | h1
        · exact absurd hx h2
        · exact ⟨h1, h2⟩
    · rw [dedupAux, if_neg hx]
      simp only [List.mem_cons, ih]
      constructor
      · rintro (rfl | ⟨h1, h2⟩)
        · exact ⟨Or.inl rfl, hx⟩
        · refine ⟨Or.inr h1, fun hs => h2 (Or.inr hs)⟩
      · rintro ⟨rfl | h1, h2⟩
        · exact Or.inl rfl
        · by_cases hax : a = x
          · exact Or.inl hax
          · exact Or.inr ⟨h1, fun hs => hs.elim hax h2⟩

theorem mem_firstDedup {α : Type} [DecidableEq α] (a : α) (l : List α) :
    a ∈ firstDedup l ↔ a ∈ l := by
  rw [firstDedup, mem_dedupAux]
  simp

theorem dedupAux_sublist {α : Type} [DecidableEq α] :
    ∀ (l seen : List α), List.Sublist (dedupAux seen l) l := by
  intro l
  induction l with
  | nil => intro seen; simp [dedupAux]
  | cons x xs ih =>
    intro seen
    by_cases hx : x ∈ seen
    · rw [dedupAux, if_pos hx]
      exact (ih seen).cons x
    · rw [dedupAux, if_neg hx]
      exact (ih (x :: seen)).cons₂ x

theorem firstDedup_sublist {α : Type} [DecidableEq α] (l : List α) :
    List.Sublist (firstDedup l) l :=
  dedupAux_sublist l []

theorem dedupAux_nodup {α : Type} [DecidableEq α] :
    ∀ (l seen : List α), (dedupAux seen l).Nodup := by
  intro l
  induction l with
  | nil => intro seen; simp [dedupAux]
  | cons x xs ih =>
    intro seen
    by_cases hx : x ∈ seen
    · rw [dedupAux, if_pos hx]
      exact ih seen
    · rw [dedupAux, if_neg hx]
      refine List.nodup_cons.mpr ⟨fun hmem => ?_, ih (x :: seen)⟩
      exact ((mem_dedupAux x xs (x :: seen)).mp hmem).2 (by simp)

theorem firstDedup_nodup {α : Type} [DecidableEq α] (l : List α) :
    (firstDedup l).Nodup :=
  dedupAux_nodup l []

theorem dedupAux_append_singleton {α : Type} [DecidableEq α] (x : α) :
    ∀ (xs seen : List α), dedupAux seen (xs ++ [x]) =
      dedupAux seen xs ++ (if x ∈ seen ∨ x ∈ xs then [] else [x]) := by
  intro xs
  induction xs with
  | nil =>
    intro seen
    by_cases hx : x ∈ seen
    · simp [dedupAux, hx]
    · simp [dedupAux, hx]
  | cons y ys ih =>
    intro seen
    by_cases hy : y ∈ seen
    · have hiff : (x ∈ seen ∨ x ∈ y :: ys) ↔ (x ∈ seen ∨ x ∈ ys) := by
        constructor
        · rintro (h | h)
          · exact Or.inl h
          · rcases List.mem_cons.mp h with rfl | h
            · exact Or.inl hy
            · exact Or.inr h
        · rintro (h | h)
          · exact Or.inl h
          · exact Or.inr (List.mem_cons_of_mem y h)
      rw [List.cons_append, dedupAux, if_pos hy, dedupAux, if_pos hy, ih,
        if_congr hiff rfl rfl]
    · have hiff : (x ∈ seen ∨ x ∈ y :: ys) ↔ (x ∈ y :: seen ∨ x ∈ ys) := by
        constructor
        · rintro (h | h)
          · exact Or.inl (List.mem_cons_of_mem y h)
          · rcases List.mem_cons.mp h with rfl | h
            · exact Or.inl (List.mem_cons_self x seen)
            · exact Or.inr h
        · rintro (h | h)
          · rcases List.mem_cons.mp h with rfl | h
            · exact Or.inr (List.mem_cons_self x ys)
            · exact Or.inl h
          · exact Or.inr (List.mem_cons_of_mem y h)
      rw [List.cons_append, dedupAux, if_neg hy, dedupAux, if_neg hy, ih,
        if_congr hiff.symm rfl rfl, List.cons_append]

theorem firstDedup_append_singleton {α : Type} [DecidableEq α] (xs : List α) (x : α) :
    firstDedup (xs ++ [x]) = firstDedup xs ++ (if x ∈ xs then [] else [x]) := by
  rw [firstDedup, dedupAux_append_singleton, firstDedup]
  simp

/-! ## Lemmas on milestone grouping -/

theorem any_label_iff (gs : List Group) (s : String) :
    gs.any (fun g => g.label == s) = true ↔ s ∈ gs.map Group.label := by
  simp only [List.any_eq_true, List.mem_map, beq_iff_eq]

theorem groupIssues_append (is : List IssueNode) (i : IssueNode) :
    groupIssues (is ++ [i]) = addIssue (groupIssues is) i := by
  simp [groupIssues, List.foldl_append]

theorem groupIssues_spec (issues : List IssueNode) :
    (groupIssues issues).map Group.label = firstDedup (issues.map labelKey) ∧
    ∀ g ∈ groupIssues issues,
      g.issues = issues.filter (fun i => labelKey i == g.label) := by
  induction issues using List.reverseRecOn with
  | nil =>
    refine ⟨rfl, fun g hg => ?_⟩
    simp [groupIssues] at hg
  | append_singleton is i ih =>
    obtain ⟨ih1, ih2⟩ := ih
    have hmm : ((groupIssues is).any (fun g => g.label == labelKey i) = true)
        ↔ labelKey i ∈ is.map labelKey := by
      rw [any_label_iff, ih1, mem_firstDedup]
    rw [groupIssues_append]
    by_cases hmem : (groupIssues is).any (fun g => g.label == labelKey i) = true
    · constructor
      · rw [addIssue, if_pos hmem, List.map_map]
        have hfun : (Group.label ∘ fun g =>
            if g.label == labelKey i then { g with issues := g.issues ++ [i] } else g)
            = Group.label := by
          funext g
          by_cases h : g.label = labelKey i
          · simp [Function.comp, h]
          · simp [Function.comp, h]
        rw [hfun, ih1]
        simp only [List.map_append, List.map_cons, List.map_nil]
        rw [firstDedup_append_singleton, if_pos (by simpa using hmm.mp hmem),
          List.append_nil]
      · intro g hg
        rw [addIssue, if_pos hmem] at hg
        obtain ⟨g', hg', rfl⟩ := List.mem_map.mp hg
        rw [List.filter_append]
        by_cases hl : g'.label = labelKey i
        · rw [if_pos (by simp [hl])]
          have hpi : (labelKey i ==
              ({ g' with issues := g'.issues ++ [i] } : Group).label) = true := by
            simp [hl]
          simp only [List.filter, hpi]
          rw [ih2 g' hg']
        · rw [if_neg (by simp [hl])]
          have hpi : (labelKey i == g'.label) = false := by
            simp
            exact fun h => hl h.symm
          simp only [List.filter, hpi]
          rw [ih2 g' hg', List.append_nil]
    · constructor
      · rw [addIssue, if_neg hmem]
        simp only [List.map_append, List.map_cons, List.map_nil]
        rw [ih1, firstDedup_append_singleton, if_neg (fun h => hmem (hmm.mpr h))]
      · intro g hg
        rw [addIssue, if_neg hmem] at hg
        rcases List.mem_append.mp hg with hg | hg
        · have hne : ¬ (g.label == labelKey i) = true :=
            fun h => hmem (List.any_eq_true.mpr ⟨g, hg, h⟩)
          have hpi : (labelKey i == g.label) = false := by
            simp
            intro h
            exact hne (by simp [h])
          rw [List.filter_append]
          simp only [List.filter, hpi]
          rw [ih2 g hg, List.append_nil]
        · have hgi : g = { label := labelKey i, issues := [i] } := by
            simpa using hg
          subst hgi
          rw [List.filter_append]
          have h1 : is.filter (fun x =>
              labelKey x == ({ label := labelKey i, issues := [i] } : Group).label) = [] := by
            rw [List.filter_eq_nil_iff]
            intro x hx h
            exact hmem (hmm.mpr (List.mem_map.mpr ⟨x, hx, by simpa using h⟩))
          rw [h1]
          simp [List.filter]

theorem dedupAux_eq_nil {α : Type} [DecidableEq α] :
    ∀ (l seen : List α), (∀ y ∈ l, y ∈ seen) → dedupAux seen l = [] := by
  intro l
  induction l with
  | nil => intro seen _; rfl
  | cons x xs ih =>
    intro seen h
    rw [dedupAux, if_pos (h x (List.mem_cons_self x xs))]
    exact ih seen (fun y hy => h y (List.mem_cons_of_mem x hy))

theorem firstDedup_const {α : Type} [DecidableEq α] (l : List α) (x : α)
    (hne : l ≠ []) (hall : ∀ y ∈ l, y = x) : firstDedup l = [x] := by
  cases l with
  | nil => exact absurd rfl hne
  | cons y ys =>
    have hy : y = x := hall y (List.mem_cons_self y ys)
    subst hy
    rw [firstDedup, dedupAux, if_neg (List.not_mem_nil y)]
    rw [dedupAux_eq_nil ys [y] (fun z hz => by
      rw [hall z (List.mem_cons_of_mem y hz)]
      simp)]

theorem buildTree_eq (issues : List IssueNode) (errors : List TreeNode)
    (h : issues ≠ []) :
    buildTree issues errors =
      match groupIssues issues with
      | [g] =>
        if g.label = "No Milestone" then g.issues.map TreeNode.issue
        else [TreeNode.group g.label g.issues]
      | gs => gs.map (fun g => TreeNode.group g.label g.issues) := by
  unfold buildTree
  rw [if_neg]
  simp [h]

/-- C9: the tree builder on an empty issue list returns the error list when
it is non-empty, and a single `No issues found` message otherwise; no
grouping or flattening happens in either case. -/
theorem buildTree_empty_issues : ∀ errors : List TreeNode,
    buildTree [] errors =
      if errors.isEmpty then [TreeNode.message "No issues found"] else errors := by
  intro errors
  cases errors
  · rfl
  · rfl

/-- C3 counterexample: an issue whose milestone object has the empty string
as title is grouped under the `No Milestone` sentinel (`m && m.title ||
'No Milestone'` treats an empty title as falsy), so its group label differs
from its milestone title although the issue does have a milestone. -/
theorem grouping_empty_title_cex :
    groupIssues [iEmptyTitle] =
      [{ label := "No Milestone", issues := [iEmptyTitle] }] ∧
    iEmptyTitle.item.milestone = some "" ∧ ("No Milestone" : String) ≠ "" := by
  refine ⟨by decide, rfl, by decide⟩

/-- C3 (amended): the tree builder groups issues by the key "the issue's
milestone title, or `No Milestone` when the issue has no milestone or its
milestone's title is empty"; the groups appear in first-seen order of the
keys, and each group's children are exactly the issues with that key, in
aggregation order. -/
theorem grouping_invariant : ∀ issues : List IssueNode,
    (groupIssues issues).map Group.label = firstDedup (issues.map labelKey) ∧
    ∀ g ∈ groupIssues issues,
      g.issues = issues.filter (fun i => labelKey i == g.label) :=
  groupIssues_spec

theorem grouping_invariant_witness :
    ({ label := "No Milestone", issues := [iEmptyTitle] } : Group).issues =
      [iEmptyTitle].filter (fun i => labelKey i ==
        ({ label := "No Milestone", issues := [iEmptyTitle] } : Group).label) :=
  (grouping_invariant [iEmptyTitle]).2 _ (by decide)

/-- C4: for a non-empty issue list, the tree builder returns the single
group's children directly exactly when grouping yields one group labelled
`No Milestone`, and the list of group nodes in every other case;
equivalently, the root list is the issue leaves themselves exactly when
every issue's key is `No Milestone`. -/
theorem buildTree_single_no_milestone (issues : List IssueNode)
    (errors : List TreeNode) (h : issues ≠ []) :
    (∀ g, groupIssues issues = [g] → g.label = "No Milestone" →
      buildTree issues errors = g.issues.map TreeNode.issue) ∧
    (∀ gs, groupIssues issues = gs →
      (∀ g, gs = [g] → g.label ≠ "No Milestone") →
      buildTree issues errors = gs.map (fun g => TreeNode.group g.label g.issues)) ∧
    (buildTree issues errors = issues.map TreeNode.issue ↔
      ∀ i ∈ issues, labelKey i = "No Milestone") := by
  have hspec := groupIssues_spec issues
  refine ⟨?_, ?_, ?_⟩
  · intro g hgs hlbl
    rw [buildTree_eq issues errors h, hgs]
    show (if g.label = "No Milestone" then g.issues.map TreeNode.issue
      else [TreeNode.group g.label g.issues]) = g.issues.map TreeNode.issue
    rw [if_pos hlbl]
  · intro gs hgs hne
    rw [buildTree_eq issues errors h, hgs]
    match gs, hne with
    | [], _ => rfl
    | [g], hne =>
      show (if g.label = "No Milestone" then g.issues.map TreeNode.issue
        else [TreeNode.group g.label g.issues]) = _
      rw [if_neg (hne g rfl)]
      rfl
    | g1 :: g2 :: rest, _ => rfl
  · constructor
    · intro heq
      by_cases hsingle : ∃ g, groupIssues issues = [g] ∧ g.label = "No Milestone"
      · obtain ⟨g, hgs, hlbl⟩ := hsingle
        intro i hi
        have hmem : labelKey i ∈ (groupIssues issues).map Group.label := by
          rw [hspec.1, mem_firstDedup]
          exact List.mem_map.mpr ⟨i, hi, rfl⟩
        rw [hgs] at hmem
        simpa [hlbl] using hmem
      · exfalso
        have hgs : buildTree issues errors =
            (groupIssues issues).map (fun g => TreeNode.group g.label g.issues) := by
          rw [buildTree_eq issues errors h]
          match hm : groupIssues issues, hsingle with
          | [], _ => rfl
          | [g], hsingle =>
            show (if g.label = "No Milestone" then g.issues.map TreeNode.issue
              else [TreeNode.group g.label g.issues]) = _
            rw [if_neg (fun hc => hsingle ⟨g, rfl, hc⟩)]
            rfl
          | g1 :: g2 :: rest, _ => rfl
        rw [hgs] at heq
        match issues, h, heq with
        | i :: is, _, heq =>
          cases hgi : groupIssues (i :: is) with
          | nil =>
            have := (groupIssues_spec (i :: is)).1
            rw [hgi] at this
            have h2 : labelKey i ∈ List.map Group.label ([] : List Group) := by
              rw [this, mem_firstDedup]
              exact List.mem_map.mpr ⟨i, List.mem_cons_self i is, rfl⟩
            simp at h2
          | cons g gs =>
            rw [hgi] at heq
            simp at heq
    · intro hall
      have hlab : (groupIssues issues).map Group.label = ["No Milestone"] := by
        rw [hspec.1]
        refine firstDedup_const _ _ ?_ ?_
        · simpa using h
        · intro y hy
          obtain ⟨i, hi, rfl⟩ := List.mem_map.mp hy
          exact hall i hi
      cases hgs : groupIssues issues with
      | nil =>
        rw [hgs] at hlab
        simp at hlab
      | cons g rest =>
        cases rest with
        | nil =>
          rw [hgs] at hlab
          have hglbl : g.label = "No Milestone" := by simpa using hlab
          have hch : g.issues = issues := by
            have := hspec.2 g (by rw [hgs]; exact List.mem_cons_self g [])
            rw [this, List.filter_eq_self]
            intro i hi
            simp [hall i hi, hglbl]
          rw [buildTree_eq issues errors h, hgs]
          show (if g.label = "No Milestone" then g.issues.map TreeNode.issue
            else [TreeNode.group g.label g.issues]) = _
          rw [if_pos hglbl, hch]
        | cons g2 rest2 =>
          rw [hgs] at hlab
          simp at hlab

theorem buildTree_single_no_milestone_witness :
    buildTree [iNoM1, iNoM2, iNoM3] [] = [iNoM1, iNoM2, iNoM3].map TreeNode.issue :=
  ((buildTree_single_no_milestone [iNoM1, iNoM2, iNoM3] [] (by decide)).2.2).mpr
    (by decide)

/-! ## Lemmas on the aggregation loop -/

theorem aggregateAux_ok (o : MilestoneOracle) (s : Search) :
    ∀ (rs : List GitRemote) (issues : List IssueNode) (errors : List TreeNode),
      (∀ r ∈ rs, okOr404 o s r = true) →
      aggregateAux o s rs issues errors =
        .ok (issues ++ rs.flatMap (fun r => (processRemote o s r).1),
             errors ++ rs.filterMap (errEntry o s)) := by
  intro rs
  induction rs with
  | nil =>
    intro issues errors _
    simp [aggregateAux]
  | cons r rest ih =>
    intro issues errors h
    have hok := h r (List.mem_cons_self r rest)
    cases hpr : processRemote o s r with
    | mk ri e? =>
      cases e? with
      | none =>
        have hstep : aggregateAux o s (r :: rest) issues errors
            = aggregateAux o s rest (issues ++ ri) errors := by
          rw [aggregateAux, hpr]
        rw [hstep, ih (issues ++ ri) errors
          (fun r' hr' => h r' (List.mem_cons_of_mem r hr'))]
        have hent : errEntry o s r = none := by
          rw [errEntry, hpr]
        simp [List.flatMap_cons, List.filterMap_cons, hpr, hent, List.append_assoc]
      | some e =>
        have h404 : is404 e = true := by
          rw [okOr404, hpr] at hok
          exact hok
        have hstep : aggregateAux o s (r :: rest) issues errors
            = if is404 e = true then
                aggregateAux o s rest (issues ++ ri) (errors ++ [cannotAccess r])
              else Except.error e := by
          rw [aggregateAux, hpr]
        rw [hstep, if_pos h404, ih (issues ++ ri) (errors ++ [cannotAccess r])
          (fun r' hr' => h r' (List.mem_cons_of_mem r hr'))]
        have hent : errEntry o s r = some (cannotAccess r) := by
          have h1 : errEntry o s r
              = if is404 e = true then some (cannotAccess r) else none := by
            rw [errEntry, hpr]
          rw [h1, if_pos h404]
        simp [List.flatMap_cons, List.filterMap_cons, hpr, hent, List.append_assoc]

theorem aggregateAux_abort (o : MilestoneOracle) (s : Search)
    (r : GitRemote) (e : Err) (post : List GitRemote)
    (hr : (processRemote o s r).2 = some e) (hn : is404 e = false) :
    ∀ (pre : List GitRemote) (issues : List IssueNode) (errors : List TreeNode),
      (∀ r' ∈ pre, okOr404 o s r' = true) →
      aggregateAux o s (pre ++ r :: post) issues errors = .error e := by
  intro pre
  induction pre with
  | nil =>
    intro issues errors _
    rw [List.nil_append]
    cases hpr : processRemote o s r with
    | mk ri e? =>
      rw [hpr] at hr
      cases e? with
      | none => exact absurd hr (by simp)
      | some e' =>
        have he : e' = e := by simpa using hr
        have hstep : aggregateAux o s (r :: post) issues errors
            = if is404 e' = true then
                aggregateAux o s post (issues ++ ri) (errors ++ [cannotAccess r])
              else Except.error e' := by
          rw [aggregateAux, hpr]
        rw [hstep, he, if_neg (by simp [hn])]
  | cons r' rest ih =>
    intro issues errors h
    have hok := h r' (List.mem_cons_self r' rest)
    rw [List.cons_append]
    cases hpr : processRemote o s r' with
    | mk ri e? =>
      cases e? with
      | none =>
        have hstep : aggregateAux o s (r' :: (rest ++ r :: post)) issues errors
            = aggregateAux o s (rest ++ r :: post) (issues ++ ri) errors := by
          rw [aggregateAux, hpr]
        rw [hstep]
        exact ih (issues ++ ri) errors (fun x hx => h x (List.mem_cons_of_mem r' hx))
      | some e' =>
        have h404 : is404 e' = true := by
          rw [okOr404, hpr] at hok
          exact hok
        have hstep : aggregateAux o s (r' :: (rest ++ r :: post)) issues errors
            = if is404 e' = true then
                aggregateAux o s (rest ++ r :: post) (issues ++ ri)
                  (errors ++ [cannotAccess r'])
              else Except.error e' := by
          rw [aggregateAux, hpr]
        rw [hstep, if_pos h404]
        exact ih (issues ++ ri) (errors ++ [cannotAccess r'])
          (fun x hx => h x (List.mem_cons_of_mem r' hx))

theorem runQueries_ok (s : Search) (r : GitRemote) :
    ∀ mss : List (Option String),
      (∀ m ∈ mss, ∃ items, s (mkSearchParams (buildQuery r m)) = .ok items) →
      runQueries s r mss =
        (mss.flatMap (fun m => (okItems s r m).map toIssueNode), none) := by
  intro mss
  induction mss with
  | nil => intro _; rfl
  | cons m rest ih =>
    intro h
    obtain ⟨items, hm⟩ := h m (List.mem_cons_self m rest)
    rw [runQueries, hm, ih (fun m' hm' => h m' (List.mem_cons_of_mem m hm'))]
    have hok : okItems s r m = items := by
      rw [okItems, hm]
    simp [List.flatMap_cons, hok]

/-- C2 counterexample: a remote whose milestone fetch succeeds with two
milestones, whose first search query returns an item and whose second
search query rejects with a 404, contributes the `Cannot access` message
AND a non-empty issue contribution, contradicting "contributes no issues
to the aggregated issue list". -/
theorem aggregate_404_cex :
    aggregate mo0 search0 [r0] = .ok ([toIssueNode item0], [cannotAccess r0]) ∧
    ([toIssueNode item0] : List IssueNode) ≠ [] := by
  exact ⟨by decide, by decide⟩

/-- C2 (amended): a remote whose processing raises a 404-class error
contributes exactly one `Cannot access {owner}/{repo}` message to the
error list and only the issues already fetched by queries completed before
the failing call (in particular none when the milestone fetch or the first
query fails), while the remaining remotes still process normally; an error
that is not 404-class propagates out and aborts the whole aggregation with
no result. -/
theorem aggregate_404_handling :
    (∀ (o : MilestoneOracle) (s : Search) (remotes : List GitRemote),
      (∀ r ∈ remotes, okOr404 o s r = true) →
      aggregate o s remotes =
        .ok (remotes.flatMap (fun r => (processRemote o s r).1),
             remotes.filterMap (errEntry o s))) ∧
    (∀ (o : MilestoneOracle) (s : Search) (pre post : List GitRemote)
      (r : GitRemote) (e : Err),
      (∀ r' ∈ pre, okOr404 o s r' = true) →
      (processRemote o s r).2 = some e → is404 e = false →
      aggregate o s (pre ++ r :: post) = .error e) := by
  constructor
  · intro o s remotes h
    rw [aggregate, aggregateAux_ok o s remotes [] [] h]
    simp
  · intro o s pre post r e hpre hr hn
    exact aggregateAux_abort o s r e post hr hn pre [] [] hpre

theorem aggregate_404_handling_witness :
    aggregate mo404 searchOk [r0, r1] =
      .ok ([r0, r1].flatMap (fun r => (processRemote mo404 searchOk r).1),
           [r0, r1].filterMap (errEntry mo404 searchOk)) :=
  aggregate_404_handling.1 mo404 searchOk [r0, r1] (by decide)

/-- C5 counterexample: with a milestone present whose title is the empty
string, the built query omits the `milestone:"..."` clause (the source
tests `if (milestone)`, and an empty string is falsy), contradicting the
claimed "if and only if a milestone is present". -/
theorem buildQuery_empty_title_cex :
    buildQuery r0 (some "") = "repo:o/re is:open" ∧
    ("repo:o/re is:open" : String) ≠ "repo:o/re is:open milestone:\"\"" := by
  exact ⟨rfl, by decide⟩

/-- C5 (amended): the query string is exactly `repo:{owner}/{repo} is:open`,
followed by ` assignee:{username}` iff the username is non-empty, followed
by ` milestone:"{title}"` iff a milestone with non-empty title is present;
the request asks for up to 100 results sorted by creation ascending; and
when every call succeeds, the aggregated issue list is ordered by remote,
then by milestone pass within a remote, then by search-result order within
a query. -/
theorem query_format_and_order :
    (∀ q : String, mkSearchParams q =
      { q, sort := "created", order := "asc", per_page := 100 }) ∧
    (∀ (r : GitRemote) (m : Option String),
      buildQuery r m =
        "repo:" ++ r.owner ++ "/" ++ r.repo ++ " is:open" ++
        (if r.username.isEmpty then "" else " assignee:" ++ r.username) ++
        (match m with
          | some t => if t.isEmpty then "" else " milestone:\"" ++ t ++ "\""
          | none => "")) ∧
    (∀ (o : MilestoneOracle) (s : Search) (remotes : List GitRemote),
      (∀ r ∈ remotes, (processRemote o s r).2 = none) →
      aggregate o s remotes =
        .ok (remotes.flatMap (fun r => (processRemote o s r).1), [])) ∧
    (∀ (s : Search) (r : GitRemote) (mss : List (Option String)),
      (∀ m ∈ mss, ∃ items, s (mkSearchParams (buildQuery r m)) = .ok items) →
      runQueries s r mss =
        (mss.flatMap (fun m => (okItems s r m).map toIssueNode), none)) := by
  refine ⟨fun q => rfl, ?_, ?_, runQueries_ok⟩
  · intro r m
    cases m with
    | none =>
      by_cases hu : r.username.isEmpty
      · simp [buildQuery, hu, ← String.append_assoc]
      · simp [buildQuery, hu, ← String.append_assoc]
    | some t =>
      by_cases hu : r.username.isEmpty
      · by_cases ht : t.isEmpty
        · simp [buildQuery, hu, ht, ← String.append_assoc]
        · simp [buildQuery, hu, ht, ← String.append_assoc]
      · by_cases ht : t.isEmpty
        · simp [buildQuery, hu, ht, ← String.append_assoc]
        · simp [buildQuery, hu, ht, ← String.append_assoc]
  · intro o s remotes h
    have hok : ∀ r ∈ remotes, okOr404 o s r = true := by
      intro r hr
      rw [okOr404, h r hr]
    rw [aggregate, aggregateAux_ok o s remotes [] [] hok]
    have : remotes.filterMap (errEntry o s) = [] := by
      rw [List.filterMap_eq_nil_iff]
      intro r hr
      rw [errEntry, h r hr]
    rw [this]
    simp

theorem query_format_and_order_witness :
    runQueries searchOk r0 [none] =
      ([none].flatMap (fun m => (okItems searchOk r0 m).map toIssueNode), none) :=
  query_format_and_order.2.2.2 searchOk r0 [none] (fun _ _ => ⟨[item1], rfl⟩)

/-! ## Lemmas on the provider state machine -/

theorem refreshStep_noop (s : PState) (now : Nat) (h : s.fetching = true) :
    refreshStep s now = s := by
  rw [refreshStep, if_pos h]

theorem pollStep_noop_busy (s : PState) (now : Nat) (h : s.fetching = true) :
    pollStep s now = s := by
  rw [pollStep]
  split
  · exact refreshStep_noop s now h
  · rfl

theorem run_noop_of_fetching :
    ∀ (evs : List Ev) (s : PState), s.fetching = true →
      (∀ e ∈ evs, (∃ t, e = Ev.refresh t) ∨ (∃ t, e = Ev.poll t)) →
      run s evs = s := by
  intro evs
  induction evs with
  | nil => intro s _ _; rfl
  | cons e rest ih =>
    intro s hf he
    have hstep : step s e = s := by
      rcases he e (List.mem_cons_self e rest) with ⟨t, rfl⟩ | ⟨t, rfl⟩
      · exact refreshStep_noop s t hf
      · exact pollStep_noop_busy s t hf
    show run (step s e) rest = s
    rw [hstep]
    exact ih s hf (fun x hx => he x (List.mem_cons_of_mem e hx))

/-- C7: in every state in which a build is in flight (the busy flag is
set), `refresh` is a complete no-op — the cached tree reference, the build
counter and the notification counter are unchanged; and `refresh` starts a
new build exactly when no build is in flight. -/
theorem refresh_busy_guard (s : PState) (now : Nat) :
    (s.fetching = true → step s (.refresh now) = s) ∧
    (s.fetching = false →
      (step s (.refresh now)).nextId = s.nextId + 1 ∧
      (step s (.refresh now)).children = some s.nextId ∧
      (step s (.refresh now)).fetching = true ∧
      (step s (.refresh now)).fired = s.fired) := by
  constructor
  · intro h
    exact refreshStep_noop s now h
  · intro h
    show (refreshStep s now).nextId = _ ∧ (refreshStep s now).children = _ ∧
      (refreshStep s now).fetching = _ ∧ (refreshStep s now).fired = _
    rw [refreshStep, if_neg (by simp [h])]
    exact ⟨rfl, rfl, rfl, rfl⟩

theorem refresh_busy_guard_witness : step sBusy (.refresh 7) = sBusy :=
  (refresh_busy_guard sBusy 7).1 rfl

/-- C8 counterexample: `lastFetch` is recorded when a build STARTS, not
when it completes.  A build starting at t = 1000 and fulfilling at
t = 400000, polled at t = 1801500, is within 30 minutes of the last
COMPLETED build, yet the poll starts a second build (the build counter
goes from 1 to 2), refuting "re-run if and only if more than 30 minutes
have elapsed since the last completed build". -/
theorem poll_staleness_cex :
    (run initState [Ev.getChildren 1000, Ev.settle true 400000]).lastCompleted
        = some 400000 ∧
    (run initState [Ev.getChildren 1000, Ev.settle true 400000]).nextId = 1 ∧
    ¬ (400000 + 30 * 60 * 1000 < 1801500) ∧
    (run initState pollTrace).nextId = 2 := by
  exact ⟨rfl, rfl, by decide, rfl⟩

/-- C8 (amended): `poll` re-runs the refresh pipeline (starting a new
build) if and only if no build is in flight AND the staleness condition
holds — no build was ever started, or the recorded start timestamp is 0
(falsy), or more than 30 minutes have elapsed since the last build
STARTED; in every other case the invocation changes no provider state. -/
theorem poll_amended (s : PState) (now : Nat) :
    (pollCond s.lastFetch now = false → step s (.poll now) = s) ∧
    (s.fetching = true → step s (.poll now) = s) ∧
    (pollCond s.lastFetch now = true → s.fetching = false →
      step s (.poll now) = step s (.refresh now) ∧
      (step s (.poll now)).nextId = s.nextId + 1) := by
  refine ⟨?_, ?_, ?_⟩
  · intro h
    show pollStep s now = s
    rw [pollStep, if_neg (by simp [h])]
  · intro h
    exact pollStep_noop_busy s now h
  · intro hc hf
    have hps : pollStep s now = refreshStep s now := by
      rw [pollStep, if_pos hc]
    refine ⟨hps, ?_⟩
    show (pollStep s now).nextId = _
    rw [hps, refreshStep, if_neg (by simp [hf])]
    rfl

theorem poll_amended_witness : step sBusy (.poll 99) = sBusy :=
  (poll_amended sBusy 99).2.1 rfl

/-- C10: when the in-flight build rejects, the busy flag stays set (only
the fulfillment handler clears it) and the cached children reference is
unchanged, so every subsequent `refresh` and `poll` invocation is a no-op
and no new build is ever started by them. -/
theorem rejected_build_wedges (s : PState) (now : Nat) (evs : List Ev)
    (hp : s.pending = true) (hf : s.fetching = true)
    (hevs : ∀ e ∈ evs, (∃ t, e = Ev.refresh t) ∨ (∃ t, e = Ev.poll t)) :
    (step s (.settle false now)).fetching = true ∧
    (step s (.settle false now)).children = s.children ∧
    (step s (.settle false now)).nextId = s.nextId ∧
    run (step s (.settle false now)) evs = step s (.settle false now) := by
  have hs : step s (.settle false now)
      = { s with pending := false, fireOnSettle := false } := by
    show settleStep s false now = _
    rw [settleStep, if_pos hp, if_neg (by simp)]
  rw [hs]
  exact ⟨hf, rfl, rfl, run_noop_of_fetching evs _ hf hevs⟩

/-! ## Lemmas on the remote scanner -/

theorem takeWhile_append_all {p : Char → Bool} :
    ∀ {xs : List Char}, (∀ c ∈ xs, p c = true) → ∀ ys : List Char,
      (xs ++ ys).takeWhile p = xs ++ ys.takeWhile p := by
  intro xs
  induction xs with
  | nil => intro _ ys; rfl
  | cons x xs ih =>
    intro h ys
    rw [List.cons_append, List.takeWhile_cons, if_pos (h x (List.mem_cons_self x xs)),
      ih (fun c hc => h c (List.mem_cons_of_mem x hc)) ys, List.cons_append]

theorem dropWhile_append_all {p : Char → Bool} :
    ∀ {xs : List Char}, (∀ c ∈ xs, p c = true) → ∀ ys : List Char,
      (xs ++ ys).dropWhile p = ys.dropWhile p := by
  intro xs
  induction xs with
  | nil => intro _ ys; rfl
  | cons x xs ih =>
    intro h ys
    rw [List.cons_append, List.dropWhile_cons, if_pos (h x (List.mem_cons_self x xs)),
      ih (fun c hc => h c (List.mem_cons_of_mem x hc)) ys]

theorem takeWhile_nonws_nil {cs : List Char} (h : headWsOrNil cs) :
    cs.takeWhile (fun c => !jsWs c) = [] := by
  cases cs with
  | nil => rfl
  | cons c cs' =>
    rw [List.takeWhile_cons, if_neg]
    simp [headWsOrNil] at h
    simp [h]

theorem dropWhile_nonws_id {cs : List Char} (h : headWsOrNil cs) :
    cs.dropWhile (fun c => !jsWs c) = cs := by
  cases cs with
  | nil => rfl
  | cons c cs' =>
    rw [List.dropWhile_cons, if_neg]
    simp [headWsOrNil] at h
    simp [h]

theorem dropWhile_head_false {p : Char → Bool} :
    ∀ (l : List Char) {c : Char} {cs : List Char},
      List.dropWhile p l = c :: cs → p c = false := by
  intro l
  induction l with
  | nil => intro c cs h; exact absurd h (by simp)
  | cons x xs ih =>
    intro c cs h
    rw [List.dropWhile_cons] at h
    by_cases hx : p x = true
    · rw [if_pos hx] at h
      exact ih h
    · rw [if_neg hx] at h
      have hxc : x = c := (List.cons.inj h).1
      subst hxc
      exact Bool.eq_false_iff.mpr hx

theorem dropWhile_length_le {p : Char → Bool} :
    ∀ l : List Char, (l.dropWhile p).length ≤ l.length := by
  intro l
  induction l with
  | nil => exact Nat.le_refl 0
  | cons x xs ih =>
    rw [List.dropWhile_cons]
    by_cases hx : p x = true
    · rw [if_pos hx]
      exact Nat.le_trans ih (Nat.le_succ _)
    · rw [if_neg hx]

theorem dropWhile_length_lt {p : Char → Bool} {cs : List Char}
    (h : cs.takeWhile p ≠ []) : (cs.dropWhile p).length < cs.length := by
  cases cs with
  | nil => exact absurd rfl h
  | cons c cs' =>
    rw [List.takeWhile_cons] at h
    by_cases hc : p c = true
    · rw [List.dropWhile_cons, if_pos hc]
      exact Nat.lt_succ_of_le (dropWhile_length_le cs')
    · rw [if_neg hc] at h
      exact absurd rfl h

theorem tryMatch_rest_lt {cs tok rest : List Char}
    (h : tryMatch cs = some (tok, rest)) : rest.length < cs.length := by
  rw [tryMatch] at h
  split at h
  · exact absurd h (by simp)
  · rename_i hc
    have hrest : rest = ((cs.dropWhile (fun c => !jsWs c)).dropWhile
        jsWs).dropWhile (fun c => !jsWs c) :=
      ((Prod.mk.injEq _ _ _ _).mp (Option.some.inj h)).2.symm
    have ht1 : cs.takeWhile (fun c => !jsWs c) ≠ [] := by
      intro hnil
      apply hc
      rw [hnil]
      rfl
    rw [hrest]
    exact Nat.lt_of_le_of_lt
      (Nat.le_trans (dropWhile_length_le _) (dropWhile_length_le _))
      (dropWhile_length_lt ht1)

theorem scanAux_fuelext :
    ∀ (f : Nat) (g : Nat) (cs : List Char) (b : Bool),
      cs.length < f → cs.length < g → scanAux f cs b = scanAux g cs b := by
  intro f
  induction f with
  | zero => intro g cs b hf _; exact absurd hf (Nat.not_lt_zero _)
  | succ f ih =>
    intro g cs b hf hg
    cases g with
    | zero => exact absurd hg (Nat.not_lt_zero _)
    | succ g =>
      cases cs with
      | nil => rfl
      | cons c cs' =>
        rw [List.length_cons] at hf hg
        have hf1 : cs'.length < f := by omega
        have hg1 : cs'.length < g := by omega
        rw [scanAux, scanAux]
        cases b with
        | false =>
          rw [if_neg (by simp), if_neg (by simp)]
          exact ih g cs' _ hf1 hg1
        | true =>
          rw [if_pos rfl, if_pos rfl]
          cases hm : tryMatch (c :: cs') with
          | none => exact ih g cs' _ hf1 hg1
          | some p =>
            cases p with
            | mk tok rest =>
              have hlt := tryMatch_rest_lt hm
              rw [List.length_cons] at hlt
              have hf' : rest.length < f := by omega
              have hg' : rest.length < g := by omega
              show tok :: scanAux f rest false = tok :: scanAux g rest false
              rw [ih g rest false hf' hg']

theorem scanT_cons_skip (c : Char) (cs : List Char) :
    scanT (c :: cs) false = scanT cs (c == '\n' || c == '\r') := by
  show scanAux (cs.length + 1 + 1) (c :: cs) false = scanT cs _
  rw [scanAux, if_neg (by simp)]
  rfl

theorem scanT_match {cs tok rest : List Char} (hne : cs ≠ [])
    (h : tryMatch cs = some (tok, rest)) :
    scanT cs true = tok :: scanT rest false := by
  cases cs with
  | nil => exact absurd rfl hne
  | cons c cs' =>
    have hlt := tryMatch_rest_lt h
    rw [List.length_cons] at hlt
    show scanAux (cs'.length + 1 + 1) (c :: cs') true = _
    rw [scanAux, if_pos rfl, h]
    show tok :: scanAux (cs'.length + 1) rest false = _
    rw [scanAux_fuelext (cs'.length + 1) (rest.length + 1) rest false
      hlt (Nat.lt_succ_self _)]
    rfl

theorem scanT_nomatch {c : Char} {cs : List Char} (h : tryMatch (c :: cs) = none) :
    scanT (c :: cs) true = scanT cs (c == '\n' || c == '\r') := by
  show scanAux (cs.length + 1 + 1) (c :: cs) true = scanT cs _
  rw [scanAux, if_pos rfl, h]
  rfl

theorem scanT_append_noline :
    ∀ (rest : List Char), (∀ c ∈ rest, (c == '\n') = false ∧ (c == '\r') = false) →
      ∀ cs : List Char, scanT (rest ++ cs) false = scanT cs false := by
  intro rest
  induction rest with
  | nil => intro _ cs; rfl
  | cons c r ih =>
    intro h cs
    obtain ⟨h1, h2⟩ := h c (List.mem_cons_self c r)
    rw [List.cons_append, scanT_cons_skip, h1, h2]
    exact ih (fun x hx => h x (List.mem_cons_of_mem c hx)) cs

theorem scanT_false_no_newline :
    ∀ (cs : List Char), (∀ c ∈ cs, (c == '\n') = false ∧ (c == '\r') = false) →
      scanT cs false = [] := by
  intro cs
  induction cs with
  | nil => intro _; rfl
  | cons c r ih =>
    intro h
    obtain ⟨h1, h2⟩ := h c (List.mem_cons_self c r)
    rw [scanT_cons_skip, h1, h2]
    exact ih (fun x hx => h x (List.mem_cons_of_mem c hx))

theorem tryMatch_append (t1 w t2 X : List Char)
    (h1 : t1 ≠ []) (h1a : ∀ c ∈ t1, jsWs c = false)
    (h2 : w ≠ []) (h2a : ∀ c ∈ w, jsWs c = true)
    (h3 : t2 ≠ []) (h3a : ∀ c ∈ t2, jsWs c = false)
    (h4 : headWsOrNil X) :
    tryMatch (t1 ++ (w ++ (t2 ++ X))) = some (t2, X) := by
  have hwhead : headWsOrNil (w ++ (t2 ++ X)) := by
    cases w with
    | nil => exact absurd rfl h2
    | cons c w' =>
      show jsWs c = true
      exact h2a c (List.mem_cons_self c w')
  have ht2head : headWsOrNil (t2 ++ X) → False := by
    intro hh
    cases t2 with
    | nil => exact h3 rfl
    | cons c t2' =>
      have : jsWs c = true := hh
      rw [h3a c (List.mem_cons_self c t2')] at this
      exact Bool.false_ne_true this
  have e1 : (t1 ++ (w ++ (t2 ++ X))).takeWhile (fun c => !jsWs c)
      = t1 := by
    rw [takeWhile_append_all (fun c hc => by simp [h1a c hc]) _,
      takeWhile_nonws_nil hwhead, List.append_nil]
  have e2 : (t1 ++ (w ++ (t2 ++ X))).dropWhile (fun c => !jsWs c)
      = w ++ (t2 ++ X) := by
    rw [dropWhile_append_all (fun c hc => by simp [h1a c hc]) _,
      dropWhile_nonws_id hwhead]
  have e3 : (w ++ (t2 ++ X)).takeWhile jsWs = w := by
    rw [takeWhile_append_all h2a _]
    cases t2 with
    | nil => exact absurd rfl h3
    | cons c t2' =>
      rw [List.cons_append, List.takeWhile_cons,
        if_neg (by simp [h3a c (List.mem_cons_self c t2')]), List.append_nil]
  have e4 : (w ++ (t2 ++ X)).dropWhile jsWs = t2 ++ X := by
    rw [dropWhile_append_all h2a _]
    cases t2 with
    | nil => exact absurd rfl h3
    | cons c t2' =>
      rw [List.cons_append, List.dropWhile_cons,
        if_neg (by simp [h3a c (List.mem_cons_self c t2')])]
  have e5 : (t2 ++ X).takeWhile (fun c => !jsWs c) = t2 := by
    rw [takeWhile_append_all (fun c hc => by simp [h3a c hc]) _,
      takeWhile_nonws_nil h4, List.append_nil]
  have e6 : (t2 ++ X).dropWhile (fun c => !jsWs c) = X := by
    rw [dropWhile_append_all (fun c hc => by simp [h3a c hc]) _,
      dropWhile_nonws_id h4]
  have hcond : (t1.isEmpty || w.isEmpty || t2.isEmpty) = false := by
    cases t1 with
    | nil => exact absurd rfl h1
    | cons a as =>
      cases w with
      | nil => exact absurd rfl h2
      | cons b bs =>
        cases t2 with
        | nil => exact absurd rfl h3
        | cons d ds => rfl
  rw [tryMatch]
  simp only [e1, e2, e3, e4, e5, e6, hcond]
  simp

theorem wfLine_decomp {l : List Char} (h : wfLineB l = true) :
    ∃ t1 w t2 rest, l = t1 ++ (w ++ (t2 ++ rest)) ∧
      t1 ≠ [] ∧ (∀ c ∈ t1, jsWs c = false) ∧
      w ≠ [] ∧ (∀ c ∈ w, jsWs c = true) ∧
      t2 ≠ [] ∧ (∀ c ∈ t2, jsWs c = false) ∧
      (∀ c ∈ rest, (c == '\n') = false ∧ (c == '\r') = false) ∧
      headWsOrNil rest ∧ secondTok l = t2 := by
  rw [wfLineB] at h
  simp only [Bool.and_eq_true, Bool.not_eq_true', List.isEmpty_iff] at h
  obtain ⟨⟨⟨h1, h2⟩, h3⟩, h4⟩ := h
  refine ⟨l.takeWhile (fun c => !jsWs c),
    (l.dropWhile (fun c => !jsWs c)).takeWhile jsWs,
    ((l.dropWhile (fun c => !jsWs c)).dropWhile jsWs).takeWhile (fun c => !jsWs c),
    ((l.dropWhile (fun c => !jsWs c)).dropWhile jsWs).dropWhile (fun c => !jsWs c),
    ?_, ?_, ?_, ?_, ?_, ?_, ?_, ?_, ?_, rfl⟩
  · rw [List.takeWhile_append_dropWhile, List.takeWhile_append_dropWhile,
      List.takeWhile_append_dropWhile]
  · intro hnil
    rw [hnil] at h1
    simp at h1
  · intro c hc
    have := List.mem_takeWhile_imp hc
    simpa using this
  · intro hnil
    rw [hnil] at h2
    simp at h2
  · intro c hc
    exact List.mem_takeWhile_imp hc
  · intro hnil
    rw [hnil] at h3
    simp at h3
  · intro c hc
    have := List.mem_takeWhile_imp hc
    simpa using this
  · intro c hc
    have hab := (List.all_eq_true.mp h4) c hc
    simp only [Bool.and_eq_true] at hab
    constructor
    · simpa using hab.1
    · simpa using hab.2
  · clear h4
    cases hrest : ((l.dropWhile (fun c => !jsWs c)).dropWhile
        jsWs).dropWhile (fun c => !jsWs c) with
    | nil => trivial
    | cons c cs =>
      show jsWs c = true
      have := dropWhile_head_false _ hrest
      simpa using this

theorem scanT_joinLines :
    ∀ ls : List (List Char), (∀ l ∈ ls, wfLineB l = true) →
      scanT (joinLines ls) true = ls.map secondTok := by
  intro ls
  induction ls with
  | nil => intro _; rfl
  | cons l ls' ih =>
    intro h
    obtain ⟨t1, w, t2, rest, hdec, h1, h1a, h2, h2a, h3, h3a, hrest, hhead, htok⟩ :=
      wfLine_decomp (h l (List.mem_cons_self l ls'))
    have hne : l ≠ [] := by
      rw [hdec]
      cases t1 with
      | nil => exact absurd rfl h1
      | cons a as => simp
    cases ls' with
    | nil =>
      show scanT l true = [secondTok l]
      have hm : tryMatch l = some (t2, rest) := by
        rw [hdec]
        exact tryMatch_append t1 w t2 rest h1 h1a h2 h2a h3 h3a hhead
      rw [scanT_match hne hm, scanT_false_no_newline rest hrest, htok]
    | cons l2 ls'' =>
      show scanT (l ++ '\n' :: joinLines (l2 :: ls'')) true
        = secondTok l :: (l2 :: ls'').map secondTok
      have hassoc : l ++ '\n' :: joinLines (l2 :: ls'')
          = t1 ++ (w ++ (t2 ++ (rest ++ '\n' :: joinLines (l2 :: ls'')))) := by
        rw [hdec]
        simp [List.append_assoc]
      have hX : headWsOrNil (rest ++ '\n' :: joinLines (l2 :: ls'')) := by
        cases rest with
        | nil =>
          show jsWs '\n' = true
          rfl
        | cons c cs =>
          show jsWs c = true
          exact hhead
      have hm : tryMatch (l ++ '\n' :: joinLines (l2 :: ls''))
          = some (t2, rest ++ '\n' :: joinLines (l2 :: ls'')) := by
        rw [hassoc]
        exact tryMatch_append t1 w t2 _ h1 h1a h2 h2a h3 h3a hX
      have hne2 : l ++ '\n' :: joinLines (l2 :: ls'') ≠ [] := by
        cases l with
        | nil => simp
        | cons a as => simp
      rw [scanT_match hne2 hm, scanT_append_noline rest hrest, scanT_cons_skip]
      have hflag : (('\n' == '\n') || ('\n' == '\r')) = true := rfl
      rw [hflag, ih (fun x hx => h x (List.mem_cons_of_mem l hx)), htok]

/-- C6: on well-formed `git remote -v` output (each line: token, whitespace,
token, then a newline-free tail), the resolver extracts the second
whitespace-delimited token of each line, de-duplicates the tokens by exact
equality keeping first occurrences in order, and keeps exactly those that
match the GitHub pattern and for which the credential lookup returns data;
the de-duplicated list is duplicate-free and preserves first-appearance
order; and the two-line fetch/push example yields exactly one GitRemote
for `acme/widgets`. -/
theorem getGitHubRemotes_correct :
    (∀ (ls : List (List Char)) (fill : String → Option String),
      (∀ l ∈ ls, wfLineB l = true) →
      getGitHubRemotes (String.mk (joinLines ls)) fill =
        (firstDedup (ls.map secondTok)).filterMap (resolveUrl fill)) ∧
    (∀ toks : List (List Char),
      (firstDedup toks).Nodup ∧ List.Sublist (firstDedup toks) toks) ∧
    getGitHubRemotes (String.mk (joinLines [exLine1, exLine2])) exFill = [exRemote] := by
  refine ⟨?_, fun toks => ⟨firstDedup_nodup toks, firstDedup_sublist toks⟩, by decide⟩
  intro ls fill h
  show (firstDedup (scanT (joinLines ls) true)).filterMap (resolveUrl fill) = _
  rw [scanT_joinLines ls h]

theorem getGitHubRemotes_correct_witness :
    getGitHubRemotes (String.mk (joinLines [exLine1, exLine2])) exFill =
      (firstDedup ([exLine1, exLine2].map secondTok)).filterMap (resolveUrl exFill) :=
  getGitHubRemotes_correct.1 [exLine1, exLine2] exFill (by decide)

theorem rejected_build_wedges_witness :
    (step sBusy (.settle false 9)).fetching = true ∧
    (step sBusy (.settle false 9)).children = sBusy.children ∧
    (step sBusy (.settle false 9)).nextId = sBusy.nextId ∧
    run (step sBusy (.settle false 9)) [Ev.refresh 10, Ev.poll 99]
      = step sBusy (.settle false 9) :=
  rejected_build_wedges sBusy 9 [Ev.refresh 10, Ev.poll 99] rfl rfl
    (by
      intro e he
      rcases List.mem_cons.mp he with rfl | he2
      · exact Or.inl ⟨10, rfl⟩
      · rcases List.mem_cons.mp he2 with rfl | he3
        · exact Or.inr ⟨99, rfl⟩
        · simp at he3)

end GHIP
